import Mathlib

/-!
Shallow embedding of the excel-to-json converter (src/excel-to-json.js).

The core of the program is:
  * `toCamelCase`       (excel-to-json.js, lines 90-111)
  * `processSheetData`  (excel-to-json.js, lines 120-166)
  * `convertExcelToJson` sheet-selection logic (excel-to-json.js, lines 174-235)

Rows arriving from the external spreadsheet parser are modelled as ordered
association lists from raw header strings to cell values.  JavaScript object
assignment (an existing key is updated in place keeping its creation
position, a new key is appended) is modelled by `jsInsert`; the ECMAScript
enumeration order observed by `for..in` / `Object.keys` / `JSON.stringify`
— array-index string keys first in ascending numeric order, then the other
keys in creation order — is modelled by `enumOrder`.
File-system access and the binary spreadsheet parser are external collaborators
and are not modelled; `convertExcelToJson` therefore receives the workbook as
an already-parsed list of (sheet name, raw row list) pairs.

Strings are processed via their underlying `List Char`; all definitions are
executable and structurally recursive.
-/

set_option autoImplicit false

/-- A raw cell value as delivered by the external parser: string, number,
boolean, date (epoch milliseconds, as in a JS `Date`), `null`, or absent
(`undefined`).  Numbers are modelled abstractly as integers; the converter
passes them through without inspecting them. -/
inductive CellValue where
  | str (s : String)
  | num (n : Int)
  | bool (b : Bool)
  | date (ms : Int)
  | null
  | undef
deriving DecidableEq, Repr

/-- An output cell value: dates have been rendered to strings, empty values
to `null`. -/
inductive JsonValue where
  | str (s : String)
  | num (n : Int)
  | bool (b : Bool)
  | null
deriving DecidableEq, Repr

/-- A raw row: ordered key/value pairs in JS `for..in` iteration order. -/
abbrev RawRow := List (String × CellValue)

/-- A normalized output row: ordered key/value pairs in JS insertion order. -/
abbrev NormRow := List (String × JsonValue)

/-- ASCII whitespace, the characters matched by the regex class `\s` that can
occur in spreadsheet headers. -/
def isWs (c : Char) : Bool :=
  c = ' ' || c = '\t' || c = '\n' || c = '\x0d' || c = '\x0b' || c = '\x0c'

/-- The separator class `[\s\-_\.]` of `toCamelCase` (line 98). -/
def isSep (c : Char) : Bool :=
  isWs c || c = '-' || c = '_' || c = '.'

/-- Remove a trailing run of whitespace (the right half of `String.trim`). -/
def dropTrailWs : List Char → List Char
  | [] => []
  | c :: cs =>
    let r := dropTrailWs cs
    if r.isEmpty then (if isWs c then [] else [c]) else c :: r

/-- JS `str.trim()`: remove leading and trailing whitespace. -/
def trimChars (l : List Char) : List Char :=
  dropTrailWs (l.dropWhile isWs)

/-- JS `str.replace(/\s+/g, " ")` (line 96 / line 144): each maximal run of
whitespace becomes a single space.  The flag records whether the previous
character was whitespace. -/
def collapseWsAux (prev : Bool) : List Char → List Char
  | [] => []
  | c :: cs =>
    if isWs c then
      if prev then collapseWsAux true cs
      else ' ' :: collapseWsAux true cs
    else c :: collapseWsAux false cs

/-- `replace(/\s+/g, " ")` starting outside a whitespace run. -/
def collapseWs (l : List Char) : List Char :=
  collapseWsAux false l

/-- Maximal runs of characters failing `p`, in order.  This is JS
`str.split(/[p-class]+/)` composed with `.filter(w => w.length > 0)`
(lines 98-100): splitting on runs of `p`-characters and dropping the empty
pieces produced at the boundaries leaves exactly the maximal non-`p` runs. -/
def tokensByAux (p : Char → Bool) (acc : List Char) : List Char → List (List Char)
  | [] => if acc.isEmpty then [] else [acc.reverse]
  | c :: cs =>
    if p c then
      if acc.isEmpty then tokensByAux p [] cs
      else acc.reverse :: tokensByAux p [] cs
    else tokensByAux p (c :: acc) cs

/-- The nonempty tokens of `l` when split on runs of `p`-characters. -/
def tokensBy (p : Char → Bool) (l : List Char) : List (List Char) :=
  tokensByAux p [] l

/-- JS `word.toLowerCase()` (ASCII). -/
def lowerWord (w : List Char) : List Char :=
  w.map Char.toLower

/-- JS `word.charAt(0).toUpperCase() + word.slice(1).toLowerCase()` (line 107). -/
def capWord : List Char → List Char
  | [] => []
  | c :: cs => Char.toUpper c :: cs.map Char.toLower

/-- The `.map((word, index) => ...)` step of `toCamelCase` (lines 102-108):
the first word is fully lower-cased, every later word is capitalized. -/
def camelWords : List (List Char) → List (List Char)
  | [] => []
  | w :: ws => lowerWord w :: ws.map capWord

/-- `toCamelCase` (excel-to-json.js, lines 90-111): trim, collapse whitespace
runs, split on separator runs dropping empty pieces, camel-case the words and
join them with no separator. -/
def toCamelCase (s : String) : String :=
  String.mk ((camelWords (tokensBy isSep (collapseWs (trimChars s.data)))).flatten)

/-- The `camelCase`-disabled key cleanup `key.toString().trim().replace(/\s+/g, " ")`
(line 144). -/
def trimCollapse (s : String) : String :=
  String.mk (collapseWs (trimChars s.data))

/-- Column-name cleanup for one raw key (lines 139-145). -/
def cleanKeyOf (camelCase : Bool) (key : String) : String :=
  if camelCase then toCamelCase key else trimCollapse key

/-- The decimal digit character for `n % 10`. -/
def digitChar (n : Nat) : Char :=
  Char.ofNat (48 + n % 10)

/-- Two-digit zero-padded decimal rendering (month, day fields of an ISO date). -/
def pad2 (n : Nat) : List Char :=
  [digitChar (n / 10), digitChar n]

/-- Four-digit zero-padded decimal rendering (year field of an ISO date). -/
def pad4 (n : Nat) : List Char :=
  [digitChar (n / 1000), digitChar (n / 100), digitChar (n / 10), digitChar n]

/-- Proleptic-Gregorian civil date `(year, month, day)` of a day number counted
from 1970-01-01 (the calendar computation underlying JS
`Date.prototype.toISOString`).  All divisions are floor divisions. -/
def civilFromDays (z0 : Int) : Int × Int × Int :=
  let z := z0 + 719468
  let era := z.fdiv 146097
  let doe := z - era * 146097
  let yoe := (doe - doe.fdiv 1460 + doe.fdiv 36524 - doe.fdiv 146096).fdiv 365
  let y := yoe + era * 400
  let doy := doe - (365 * yoe + yoe.fdiv 4 - yoe.fdiv 100)
  let mp := (5 * doy + 2).fdiv 153
  let d := doy - (153 * mp + 2).fdiv 5 + 1
  let m := mp + (if mp < 10 then 3 else -9)
  (y + (if m ≤ 2 then 1 else 0), m, d)

/-- `"YYYY-MM-DD"` for a day number (years 0..9999 render as in JS). -/
def isoDateOfDay (z : Int) : String :=
  match civilFromDays z with
  | (y, m, d) => String.mk (pad4 y.toNat ++ '-' :: (pad2 m.toNat ++ '-' :: pad2 d.toNat))

/-- `value.toISOString().split("T")[0]` (line 155): the UTC calendar date of
the instant `ms`, where the day number is `floor(ms / 86400000)` as in
ECMAScript's `Day(t)`. -/
def isoDatePart (ms : Int) : String :=
  isoDateOfDay (ms.fdiv 86400000)

/-- Cell-value coercion (lines 150-161): dates render as `"YYYY-MM-DD"`;
`null`, `undefined` and `""` become `null`; everything else passes through. -/
def coerceValue : CellValue → JsonValue
  | .date ms => .str (isoDatePart ms)
  | .null => .null
  | .undef => .null
  | .str s => if s = "" then .null else .str s
  | .num n => .num n
  | .bool b => .bool b

/-- The row-retention test `cell !== null && cell !== undefined && cell !== ""`
(line 125). -/
def cellHasContent (v : CellValue) : Bool :=
  !(v == CellValue.null) && !(v == CellValue.undef) && !(v == CellValue.str "")

/-- The empty-row filter predicate (lines 124-126): keep a row iff some value
has content; keys are ignored (`Object.values`). -/
def rowNonEmpty (row : RawRow) : Bool :=
  row.any fun p => cellHasContent p.2

/-- JS object assignment `obj[k] = v` on an object held in property-creation
order: if the key is present its value is updated in place (the key keeps its
creation position), otherwise the pair is appended.  Creation order is the
object's internal storage order; the order in which keys are *observed*
(`for..in`, `Object.keys`, `JSON.stringify`) is `enumOrder` of this list,
which moves array-index keys to the front in ascending numeric order. -/
def jsInsert (l : NormRow) (k : String) (v : JsonValue) : NormRow :=
  if l.any fun p => p.1 == k then
    l.map fun p => if p.1 == k then (k, v) else p
  else
    l ++ [(k, v)]

/-- JS object read `obj[k]`: the value of the first (hence, keys being unique,
the only) pair with key `k`. -/
def getVal (l : NormRow) (k : String) : Option JsonValue :=
  (l.find? fun p => p.1 == k).map fun p => p.2

/-- The body of the `for (let key in row)` loop (lines 137-163): clean the key,
skip the pair when the clean key is empty, otherwise coerce the value and
assign. -/
def insertPair (camelCase : Bool) (acc : NormRow) (p : String × CellValue) : NormRow :=
  let ck := cleanKeyOf camelCase p.1
  if ck = "" then acc else jsInsert acc ck (coerceValue p.2)

/-- The per-row transform of `processSheetData` (lines 129-165): start from
`{id: index}` when `addId`, then process the row's pairs in iteration order. -/
def processRow (addId camelCase : Bool) (index : Nat) (row : RawRow) : NormRow :=
  row.foldl (insertPair camelCase)
    (if addId then [("id", JsonValue.num index)] else [])

/-- `filteredData.map((row, index) => ...)`: transform each retained row with
its position in the retained sequence. -/
def processAll (addId camelCase : Bool) : Nat → List RawRow → List NormRow
  | _, [] => []
  | i, r :: rs => processRow addId camelCase i r :: processAll addId camelCase (i + 1) rs

/-- `processSheetData` (excel-to-json.js, lines 120-166).  The JS defaults are
`addId = true`, `camelCase = true`; the `!data` null-guard is subsumed by the
empty list.  Empty rows are removed first, then each surviving row is
transformed with its post-filtering index. -/
def processSheetData (data : List RawRow) (addId camelCase : Bool) : List NormRow :=
  processAll addId camelCase 0 (data.filter rowNonEmpty)

/-- The conversion options consumed by `convertExcelToJson` (lines 174, 185,
194-197, 209).  `sheet = none` models an absent `options.sheet`. -/
structure SheetOpts where
  sheet : Option String
  allSheets : Bool
  listSheets : Bool
  noId : Bool
  noCamelCase : Bool
deriving DecidableEq, Repr

/-- The outcome of `convertExcelToJson`: the sheet listing, a single sheet's
rows, the all-sheets mapping, or a caught error (`success: false`) carrying
the thrown message. -/
inductive ConvResult where
  | listing (sheets : List String)
  | single (rows : List NormRow)
  | multi (sheets : List (String × List NormRow))
  | failure (msg : String)
deriving DecidableEq, Repr

/-- The message of the error thrown at line 212:
`Sheet "<name>" not found. Available sheets: <comma-joined names>`.
It carries both the requested name and the full list of available names. -/
def sheetNotFoundMsg (requested : String) (available : List String) : String :=
  "Sheet \"" ++ requested ++ "\" not found. Available sheets: " ++ String.intercalate ", " available

/-- Whether a conversion outcome is a failure (`success: false`). -/
def isFailure : ConvResult → Bool
  | .failure _ => true
  | _ => false

/-- The sheet-selection and conversion logic of `convertExcelToJson`
(excel-to-json.js, lines 174-235), over an already-parsed workbook given as
ordered (sheet name, raw rows) pairs.  File reading and `sheet_to_json` are
external and not modelled.  `options.sheet || sheetNames[0]` falls back to the
first sheet when `options.sheet` is absent *or the empty string* (JS
falsiness); when the workbook has no sheets the fallback is `undefined`,
modelled as `none`, and the thrown message interpolates it as `"undefined"`.
The `sheetNames.includes(targetSheet)` guard and the `workbook.Sheets[...]`
lookup are combined into one `find?`: the guard succeeds exactly when a sheet
of that name exists. -/
def convertExcelToJson (wb : List (String × List RawRow)) (o : SheetOpts) : ConvResult :=
  let sheetNames := wb.map Prod.fst
  if o.listSheets then
    ConvResult.listing sheetNames
  else
    let addId := !o.noId
    let camelCase := !o.noCamelCase
    if o.allSheets then
      ConvResult.multi (wb.map fun p => (p.1, processSheetData p.2 addId camelCase))
    else
      let targetSheet : Option String :=
        match o.sheet with
        | some s => if s = "" then sheetNames.head? else some s
        | none => sheetNames.head?
      match targetSheet with
      | none => ConvResult.failure (sheetNotFoundMsg "undefined" sheetNames)
      | some t =>
        match wb.find? fun p => p.1 == t with
        | some p => ConvResult.single (processSheetData p.2 addId camelCase)
        | none => ConvResult.failure (sheetNotFoundMsg t sheetNames)

/-- The single space character used when collapsed tokens are re-joined. -/
def joinSp : List (List Char) → List Char
  | [] => []
  | [t] => t
  | t :: ts => t ++ ' ' :: joinSp ts

/-- Whether a string is the canonical decimal representation of a natural
number: nonempty, all ASCII digits, and no leading zero unless it is `"0"`
itself. -/
def isCanonicalNat (s : String) : Bool :=
  match s.data with
  | [] => false
  | [c] => c.isDigit
  | c :: cs => c.isDigit && !(c == '0') && cs.all Char.isDigit

/-- The natural number denoted by a list of decimal digit characters. -/
def natOfDigits (l : List Char) : Nat :=
  l.foldl (fun a c => a * 10 + (c.toNat - 48)) 0

/-- ECMAScript array-index key: the canonical decimal string of an integer
`n` with `0 ≤ n < 2^32 - 1`. -/
def isArrayIndex (s : String) : Bool :=
  isCanonicalNat s && natOfDigits s.data < 4294967295

/-- The ECMAScript property-enumeration order of an object stored in
creation order (`OrdinaryOwnPropertyKeys`, used by `for..in`, `Object.keys`
and `JSON.stringify`): array-index keys first, in ascending numeric order,
then the remaining keys in creation order.  `processRow` builds the object in
creation order; `enumOrder` gives the order in which its keys are observed
and serialized. -/
def enumOrder (r : NormRow) : NormRow :=
  List.insertionSort (fun p q => natOfDigits p.1.data ≤ natOfDigits q.1.data)
    (r.filter fun p => isArrayIndex p.1)
  ++ r.filter fun p => !(isArrayIndex p.1)

/-! ### Token machinery: splitting is unaffected by trimming and whitespace collapsing -/

theorem tokensByAux_all_sep (p : Char → Bool) :
    ∀ w : List Char, (∀ c ∈ w, p c = true) →
      ∀ acc, tokensByAux p acc w = if acc.isEmpty then [] else [acc.reverse] := by
  intro w
  induction w with
  | nil => intro _ acc; rfl
  | cons c cs ih =>
    intro h acc
    have hc : p c = true := h c (by simp)
    have hcs : ∀ x ∈ cs, p x = true := fun x hx => h x (by simp [hx])
    by_cases hacc : acc.isEmpty <;>
      simp [tokensByAux, hc, hacc, ih hcs]

theorem tokensByAux_append_ws (p : Char → Bool) (w : List Char)
    (hw : ∀ c ∈ w, p c = true) :
    ∀ (m : List Char) (acc : List Char),
      tokensByAux p acc (m ++ w) = tokensByAux p acc m := by
  intro m
  induction m with
  | nil =>
    intro acc
    rw [List.nil_append, tokensByAux_all_sep p w hw acc]
    rfl
  | cons c cs ih =>
    intro acc
    by_cases hc : p c <;> by_cases hacc : acc.isEmpty <;>
      simp [tokensByAux, hc, hacc, ih]

theorem dropTrailWs_decomp :
    ∀ l : List Char, ∃ w, l = dropTrailWs l ++ w ∧ ∀ c ∈ w, isWs c = true := by
  intro l
  induction l with
  | nil => exact ⟨[], rfl, by simp⟩
  | cons c cs ih =>
    obtain ⟨w, hw, hws⟩ := ih
    by_cases h : (dropTrailWs cs).isEmpty
    · have hcs : cs = w := by
        have : dropTrailWs cs = [] := by
          cases heq : dropTrailWs cs with
          | nil => rfl
          | cons x xs => rw [heq] at h; simp at h
        rw [this] at hw; simpa using hw
      by_cases hc : isWs c
      · refine ⟨c :: w, ?_, ?_⟩
        · have hnil : dropTrailWs (c :: cs) = [] := by
            simp [dropTrailWs, h, hc]
          rw [hnil, List.nil_append, hcs]
        · intro x hx
          rcases List.mem_cons.mp hx with h1 | h2
          · rw [h1]; exact hc
          · exact hws x h2
      · refine ⟨w, ?_, hws⟩
        simp only [dropTrailWs, h, if_pos, if_neg hc]
        simpa using hcs
    · refine ⟨w, ?_, hws⟩
      simp only [dropTrailWs]
      rw [if_neg h]
      simpa using hw

theorem tokensByAux_dropWhile (p q : Char → Bool)
    (hpq : ∀ c, q c = true → p c = true) :
    ∀ l : List Char, tokensByAux p [] (l.dropWhile q) = tokensByAux p [] l := by
  intro l
  induction l with
  | nil => rfl
  | cons c cs ih =>
    by_cases hc : q c
    · have hp : p c = true := hpq c hc
      rw [List.dropWhile_cons_of_pos hc, ih]
      simp [tokensByAux, hp]
    · rw [List.dropWhile_cons_of_neg hc]

theorem tokensBy_trim (p : Char → Bool) (hp : ∀ c, isWs c = true → p c = true)
    (l : List Char) : tokensBy p (trimChars l) = tokensBy p l := by
  unfold tokensBy trimChars
  obtain ⟨w, hw, hws⟩ := dropTrailWs_decomp (l.dropWhile isWs)
  calc tokensByAux p [] (dropTrailWs (l.dropWhile isWs))
      = tokensByAux p [] (dropTrailWs (l.dropWhile isWs) ++ w) :=
        (tokensByAux_append_ws p w (fun c hc => hp c (hws c hc)) _ []).symm
    _ = tokensByAux p [] (l.dropWhile isWs) := by rw [← hw]
    _ = tokensByAux p [] l := tokensByAux_dropWhile p isWs hp l

theorem tokensByAux_collapse :
    ∀ (l : List Char) (acc : List Char) (prev : Bool), (prev = true → acc = []) →
      tokensByAux isSep acc (collapseWsAux prev l) = tokensByAux isSep acc l := by
  intro l
  induction l with
  | nil => intro acc prev _; rfl
  | cons c cs ih =>
    intro acc prev hpa
    by_cases hc : isWs c
    · have hsep : isSep c = true := by simp [isSep, hc]
      cases prev with
      | true =>
        rw [hpa rfl]
        simp only [collapseWsAux, hc, if_pos, if_true]
        rw [ih [] true (fun _ => rfl)]
        simp [tokensByAux, hsep]
      | false =>
        have hsp : isSep ' ' = true := by decide
        by_cases hacc : acc.isEmpty <;>
          simp [collapseWsAux, hc, tokensByAux, hsep, hsp, hacc,
            ih [] true (fun _ => rfl)]
    · by_cases hsep : isSep c <;> by_cases hacc : acc.isEmpty <;>
        simp [collapseWsAux, hc, tokensByAux, hsep, hacc,
          ih [] false (by simp), ih (c :: acc) false (by simp)]

theorem tokensBy_collapse_trim (l : List Char) :
    tokensBy isSep (collapseWs (trimChars l)) = tokensBy isSep l := by
  have h1 : tokensBy isSep (collapseWs (trimChars l)) = tokensBy isSep (trimChars l) := by
    unfold tokensBy collapseWs
    exact tokensByAux_collapse (trimChars l) [] false (by simp)
  rw [h1]
  exact tokensBy_trim isSep (fun c hc => by simp [isSep, hc]) l

/-! ### Whitespace collapsing rebuilds the space-joined whitespace tokens -/

theorem dropWhile_head_not (q : Char → Bool) :
    ∀ (l : List Char) (c : Char), (l.dropWhile q).head? = some c → q c = false := by
  intro l
  induction l with
  | nil => intro c h; simp at h
  | cons a as ih =>
    intro c h
    by_cases ha : q a
    · rw [List.dropWhile_cons_of_pos ha] at h; exact ih c h
    · rw [List.dropWhile_cons_of_neg ha] at h
      simp only [List.head?_cons, Option.some.injEq] at h
      rw [← h]
      simpa using ha

theorem noTrail_tail {a : Char} {as : List Char}
    (h : ∀ c, (a :: as).getLast? = some c → isWs c = false) :
    ∀ c, as.getLast? = some c → isWs c = false := by
  intro c hc
  apply h
  cases as with
  | nil => exact absurd hc (by simp)
  | cons b bs => rw [List.getLast?_cons_cons]; exact hc

theorem dropTrailWs_getLast (l : List Char) :
    ∀ c, (dropTrailWs l).getLast? = some c → isWs c = false := by
  induction l with
  | nil => intro c h; simp [dropTrailWs] at h
  | cons a as ih =>
    intro c h
    by_cases he : (dropTrailWs as).isEmpty
    · by_cases ha : isWs a
      · simp [dropTrailWs, he, ha] at h
      · have hone : dropTrailWs (a :: as) = [a] := by simp [dropTrailWs, he, ha]
        rw [hone] at h
        simp only [List.getLast?_singleton, Option.some.injEq] at h
        rw [← h]
        simpa using ha
    · have hne : dropTrailWs as ≠ [] := by
        intro h0; rw [h0] at he; simp at he
      have hstep : dropTrailWs (a :: as) = a :: dropTrailWs as := by
        simp [dropTrailWs, he]
      rw [hstep] at h
      cases hd : dropTrailWs as with
      | nil => exact absurd hd hne
      | cons x xs =>
        rw [hd, List.getLast?_cons_cons] at h
        apply ih
        rw [hd]
        exact h

theorem dropTrailWs_head (l : List Char) (h : dropTrailWs l ≠ []) :
    (dropTrailWs l).head? = l.head? := by
  cases l with
  | nil => rfl
  | cons a as =>
    by_cases he : (dropTrailWs as).isEmpty
    · by_cases ha : isWs a
      · exact absurd (by simp [dropTrailWs, he, ha]) h
      · simp [dropTrailWs, he, ha]
    · simp [dropTrailWs, he]

theorem tokensByAux_ne_nil (p : Char → Bool) :
    ∀ (l acc : List Char), l ≠ [] →
      (∀ c, l.getLast? = some c → p c = false) → tokensByAux p acc l ≠ [] := by
  intro l
  induction l with
  | nil => intro acc h _; exact absurd rfl h
  | cons a as ih =>
    intro acc _ hlast
    cases as with
    | nil =>
      have hpa : p a = false := hlast a (by simp)
      simp [tokensByAux, hpa]
    | cons b bs =>
      have hlast2 : ∀ c, (b :: bs).getLast? = some c → p c = false := by
        intro c hc
        apply hlast
        rw [List.getLast?_cons_cons]
        exact hc
      by_cases hpa : p a
      · have hrec := ih [] (by simp) hlast2
        by_cases hacc : acc.isEmpty
        · have hstep : tokensByAux p acc (a :: b :: bs) = tokensByAux p [] (b :: bs) := by
            simp [tokensByAux, hpa, hacc]
          rw [hstep]; exact hrec
        · have hstep : tokensByAux p acc (a :: b :: bs)
              = acc.reverse :: tokensByAux p [] (b :: bs) := by
            simp [tokensByAux, hpa, hacc]
          rw [hstep]; simp
      · have hrec := ih (a :: acc) (by simp) hlast2
        have hstep : tokensByAux p acc (a :: b :: bs) = tokensByAux p (a :: acc) (b :: bs) := by
          simp [tokensByAux, hpa]
        rw [hstep]; exact hrec

theorem joinSp_tokensByAux :
    ∀ (l acc : List Char) (prev : Bool),
      (∀ c, l.getLast? = some c → isWs c = false) →
      (prev = true → acc = []) →
      (prev = false → acc = [] → ∀ c, l.head? = some c → isWs c = false) →
      joinSp (tokensByAux isWs acc l) = acc.reverse ++ collapseWsAux prev l := by
  intro l
  induction l with
  | nil =>
    intro acc prev _ _ _
    cases acc with
    | nil => simp [tokensByAux, joinSp, collapseWsAux]
    | cons x xs => simp [tokensByAux, joinSp, collapseWsAux]
  | cons a as ih =>
    intro acc prev hlast hp ha
    by_cases hws : isWs a
    · cases prev with
      | true =>
        rw [hp rfl]
        have hstep : tokensByAux isWs ([] : List Char) (a :: as) = tokensByAux isWs [] as := by
          simp [tokensByAux, hws]
        have hcol : collapseWsAux true (a :: as) = collapseWsAux true as := by
          simp [collapseWsAux, hws]
        rw [hstep, hcol]
        have has : as ≠ [] := by
          intro h0
          subst h0
          have := hlast a (by simp)
          rw [hws] at this
          exact absurd this (by simp)
        exact ih [] true (noTrail_tail hlast) (fun _ => rfl) (by intro h; exact absurd h (by simp))
      | false =>
        have hacc : acc ≠ [] := by
          intro h0
          have := ha rfl h0 a (by simp)
          rw [hws] at this
          exact absurd this (by simp)
        have has : as ≠ [] := by
          intro h0
          subst h0
          have := hlast a (by simp)
          rw [hws] at this
          exact absurd this (by simp)
        have haccE : acc.isEmpty = false := by
          cases acc with
          | nil => exact absurd rfl hacc
          | cons x xs => rfl
        have hstep : tokensByAux isWs acc (a :: as)
            = acc.reverse :: tokensByAux isWs [] as := by
          simp [tokensByAux, hws, haccE]
        have hT : tokensByAux isWs [] as ≠ [] :=
          tokensByAux_ne_nil isWs as [] has (noTrail_tail hlast)
        have hinner : joinSp (tokensByAux isWs [] as) = collapseWsAux true as := by
          have := ih [] true (noTrail_tail hlast) (fun _ => rfl) (by intro h; exact absurd h (by simp))
          simpa using this
        have hcol : collapseWsAux false (a :: as) = ' ' :: collapseWsAux true as := by
          simp [collapseWsAux, hws]
        rw [hstep, hcol]
        cases hTd : tokensByAux isWs [] as with
        | nil => exact absurd hTd hT
        | cons t ts =>
          rw [hTd] at hinner
          have hj : joinSp (acc.reverse :: t :: ts) = acc.reverse ++ ' ' :: joinSp (t :: ts) := rfl
          rw [hj, hinner]
    · have hstep : tokensByAux isWs acc (a :: as) = tokensByAux isWs (a :: acc) as := by
        simp [tokensByAux, hws]
      have hcol : collapseWsAux prev (a :: as) = a :: collapseWsAux false as := by
        simp [collapseWsAux, hws]
      rw [hstep, hcol]
      have h2 := ih (a :: acc) false (noTrail_tail hlast)
        (by intro h; exact absurd h (by simp)) (by intro _ h; exact absurd h (by simp))
      rw [h2]
      simp

theorem trimCollapse_eq_joinSp (s : String) :
    trimCollapse s = String.mk (joinSp (tokensBy isWs s.data)) := by
  unfold trimCollapse collapseWs
  congr 1
  have h1 : tokensBy isWs s.data = tokensBy isWs (trimChars s.data) :=
    (tokensBy_trim isWs (fun _ hc => hc) s.data).symm
  rw [h1]
  have hlast : ∀ c, (trimChars s.data).getLast? = some c → isWs c = false :=
    fun c hc => dropTrailWs_getLast (s.data.dropWhile isWs) c hc
  have ha : (false = false) → (([] : List Char) = []) →
      ∀ c, (trimChars s.data).head? = some c → isWs c = false := by
    intro _ _ c hc
    have hne : dropTrailWs (s.data.dropWhile isWs) ≠ [] := by
      intro h0
      have : (trimChars s.data).head? = none := by
        show (dropTrailWs (s.data.dropWhile isWs)).head? = none
        rw [h0]; rfl
      rw [this] at hc; cases hc
    have hh := dropTrailWs_head (s.data.dropWhile isWs) hne
    have hc2 : (s.data.dropWhile isWs).head? = some c := by
      rw [← hh]; exact hc
    exact dropWhile_head_not isWs (s.data) c hc2
  have := joinSp_tokensByAux (trimChars s.data) [] false hlast (by intro h; exact absurd h (by simp)) ha
  unfold tokensBy
  rw [this]
  simp

/-! ### JS object assignment: lookup, keys, head -/

theorem find?_update_self (l : NormRow) (k : String) (v : JsonValue)
    (h : (l.any fun p => p.1 == k) = true) :
    (l.map fun p => if p.1 == k then (k, v) else p).find? (fun p => p.1 == k)
      = some (k, v) := by
  induction l with
  | nil => simp at h
  | cons p ps ih =>
    by_cases hp : (p.1 == k) = true
    · have hmap : (fun q => if q.1 == k then (k, v) else q) p = (k, v) := by simp [hp]
      have hkv : (((k, v) : String × JsonValue).1 == k) = true := by simp
      simp only [List.map_cons, hmap, List.find?_cons, hkv]
    · have hpf : (p.1 == k) = false := by simpa using hp
      have h2 : (ps.any fun q => q.1 == k) = true := by
        rw [List.any_cons, hpf] at h
        simpa using h
      rw [List.map_cons, if_neg hp, List.find?_cons]
      simp only [hpf]
      exact ih h2

theorem find?_update_ne (l : NormRow) (k k2 : String) (v : JsonValue)
    (hne : k2 ≠ k) :
    (l.map fun p => if p.1 == k then (k, v) else p).find? (fun p => p.1 == k2)
      = l.find? (fun p => p.1 == k2) := by
  induction l with
  | nil => rfl
  | cons p ps ih =>
    by_cases hp : (p.1 == k) = true
    · have hk : p.1 = k := by rwa [beq_iff_eq] at hp
      have hmap : (fun q => if q.1 == k then (k, v) else q) p = (k, v) := by simp [hp]
      have hkk2 : (((k, v) : String × JsonValue).1 == k2) = false := by
        simp only [beq_eq_false_iff_ne]
        exact fun h => hne h.symm
      have hpk2 : (p.1 == k2) = false := by
        show (p.1 == k2) = false
        rw [hk]
        exact hkk2
      simp only [List.map_cons, hmap, List.find?_cons, hkk2, hpk2]
      exact ih
    · have hpf : (p.1 == k) = false := by simpa using hp
      have hmap : (fun q => if q.1 == k then (k, v) else q) p = p := by simp [hpf]
      simp only [List.map_cons, hmap, List.find?_cons]
      by_cases hpk2 : (p.1 == k2) = true
      · simp only [hpk2]
      · have hpk2f : (p.1 == k2) = false := by simpa using hpk2
        simp only [hpk2f]
        exact ih

theorem getVal_jsInsert_self (l : NormRow) (k : String) (v : JsonValue) :
    getVal (jsInsert l k v) k = some v := by
  unfold jsInsert getVal
  by_cases h : (l.any fun p => p.1 == k) = true
  · rw [if_pos h, find?_update_self l k v h]
    rfl
  · rw [if_neg h]
    have hnone : l.find? (fun p => p.1 == k) = none := by
      rw [List.find?_eq_none]
      intro p hp hpk
      rw [List.any_eq_true] at h
      exact h ⟨p, hp, hpk⟩
    rw [List.find?_append, hnone]
    have hkv : (((k, v) : String × JsonValue).1 == k) = true := by simp
    simp only [Option.none_orElse, List.find?_cons, hkv]
    rfl

theorem getVal_jsInsert_ne (l : NormRow) (k k2 : String) (v : JsonValue)
    (hne : k2 ≠ k) : getVal (jsInsert l k v) k2 = getVal l k2 := by
  unfold jsInsert getVal
  by_cases h : (l.any fun p => p.1 == k) = true
  · rw [if_pos h, find?_update_ne l k k2 v hne]
  · rw [if_neg h]
    have hkk2 : (((k, v) : String × JsonValue).1 == k2) = false := by
      simp only [beq_eq_false_iff_ne]
      exact fun h2 => hne h2.symm
    have hsing : ([((k, v))] : NormRow).find? (fun p => p.1 == k2) = none := by
      simp only [List.find?_cons, hkk2]
      rfl
    rw [List.find?_append, hsing]
    cases l.find? fun p => p.1 == k2 <;> rfl

theorem map_fst_update (l : NormRow) (k : String) (v : JsonValue) :
    (l.map fun p => if p.1 == k then (k, v) else p).map Prod.fst = l.map Prod.fst := by
  induction l with
  | nil => rfl
  | cons p ps ih =>
    by_cases hp : (p.1 == k) = true
    · have hk : p.1 = k := by rwa [beq_iff_eq] at hp
      have hmap : (fun q => if q.1 == k then (k, v) else q) p = (k, v) := by simp [hp]
      simp only [List.map_cons, hmap, ih]
      rw [hk]
    · have hpf : (p.1 == k) = false := by simpa using hp
      have hmap : (fun q => if q.1 == k then (k, v) else q) p = p := by simp [hpf]
      simp only [List.map_cons, hmap, ih]

theorem jsInsert_map_fst (l : NormRow) (k : String) (v : JsonValue) :
    (jsInsert l k v).map Prod.fst = l.map Prod.fst
      ∨ ((jsInsert l k v).map Prod.fst = l.map Prod.fst ++ [k]
          ∧ k ∉ l.map Prod.fst) := by
  unfold jsInsert
  by_cases h : (l.any fun p => p.1 == k) = true
  · rw [if_pos h]
    exact Or.inl (map_fst_update l k v)
  · rw [if_neg h]
    refine Or.inr ⟨by simp, ?_⟩
    intro hmem
    rw [List.mem_map] at hmem
    obtain ⟨p, hp, hpk⟩ := hmem
    rw [List.any_eq_true] at h
    exact h ⟨p, hp, by rw [beq_iff_eq]; exact hpk⟩

theorem jsInsert_ne_nil (l : NormRow) (k : String) (v : JsonValue)
    (h : l ≠ []) : jsInsert l k v ≠ [] := by
  unfold jsInsert
  by_cases ha : (l.any fun p => p.1 == k) = true
  · rw [if_pos ha]
    intro h0
    exact h (List.map_eq_nil_iff.mp h0)
  · rw [if_neg ha]
    intro h0
    rcases List.append_eq_nil.mp h0 with ⟨_, h2⟩
    cases h2

theorem jsInsert_head_of_ne (l : NormRow) (k h0 : String) (e v : JsonValue)
    (hh : l.head? = some (h0, e)) (hne : h0 ≠ k) :
    (jsInsert l k v).head? = some (h0, e) := by
  unfold jsInsert
  cases l with
  | nil => cases hh
  | cons p ps =>
    have hp : p = (h0, e) := by
      simp only [List.head?_cons, Option.some.injEq] at hh
      exact hh
    subst hp
    have hpk : (((h0, e) : String × JsonValue).1 == k) = false := by
      simpa [beq_eq_false_iff_ne] using hne
    by_cases ha : (((h0, e) :: ps).any fun p => p.1 == k) = true
    · rw [if_pos ha]
      have hmap : (fun q => if q.1 == k then (k, v) else q) ((h0, e) : String × JsonValue)
          = (h0, e) := by simp [hpk]
      simp only [List.map_cons, hmap, List.head?_cons]
    · rw [if_neg ha]
      rfl

theorem jsInsert_head_fst (l : NormRow) (k : String) (v : JsonValue)
    (h : l ≠ []) :
    (jsInsert l k v).head?.map Prod.fst = l.head?.map Prod.fst := by
  unfold jsInsert
  cases l with
  | nil => exact absurd rfl h
  | cons p ps =>
    by_cases ha : ((p :: ps).any fun q => q.1 == k) = true
    · rw [if_pos ha]
      by_cases hp : (p.1 == k) = true
      · have hk : p.1 = k := by rwa [beq_iff_eq] at hp
        have hmap : (fun q => if q.1 == k then (k, v) else q) p = (k, v) := by simp [hp]
        simp [hmap, hk]
      · rw [List.map_cons, if_neg hp]
        simp
    · rw [if_neg ha]
      rfl

/-! ### Folding one row's key/value pairs -/

theorem getVal_foldl_of_no_match (cc : Bool) :
    ∀ (row : RawRow) (acc : NormRow) (k : String),
      (∀ q ∈ row, cleanKeyOf cc q.1 ≠ k) →
      getVal (row.foldl (insertPair cc) acc) k = getVal acc k := by
  intro row
  induction row with
  | nil => intro acc k _; rfl
  | cons q qs ih =>
    intro acc k hq
    rw [List.foldl_cons]
    have hqk : cleanKeyOf cc q.1 ≠ k := hq q (by simp)
    have hqs : ∀ r ∈ qs, cleanKeyOf cc r.1 ≠ k := fun r hr => hq r (by simp [hr])
    rw [ih _ k hqs]
    simp only [insertPair]
    by_cases hck : cleanKeyOf cc q.1 = ""
    · rw [if_pos hck]
    · rw [if_neg hck]
      exact getVal_jsInsert_ne acc _ k _ (fun h => hqk h.symm)

theorem getVal_foldl_last (cc : Bool) :
    ∀ (row : RawRow) (acc : NormRow) (k : String) (p : String × CellValue),
      k ≠ "" →
      (row.filter fun q => cleanKeyOf cc q.1 == k).getLast? = some p →
      getVal (row.foldl (insertPair cc) acc) k = some (coerceValue p.2) := by
  intro row
  induction row with
  | nil => intro acc k p _ hlast; simp at hlast
  | cons q qs ih =>
    intro acc k p hk hlast
    rw [List.foldl_cons]
    by_cases hq : (cleanKeyOf cc q.1 == k) = true
    · have hkeq : cleanKeyOf cc q.1 = k := by rwa [beq_iff_eq] at hq
      rw [List.filter_cons, if_pos hq] at hlast
      cases hflt : (qs.filter fun r => cleanKeyOf cc r.1 == k) with
      | nil =>
        rw [hflt] at hlast
        have hpq : p = q := by
          simp only [List.getLast?_singleton, Option.some.injEq] at hlast
          exact hlast.symm
        subst hpq
        have hnom : ∀ r ∈ qs, cleanKeyOf cc r.1 ≠ k := by
          intro r hr hcontra
          have hmem : r ∈ qs.filter fun r => cleanKeyOf cc r.1 == k := by
            rw [List.mem_filter]
            exact ⟨hr, by rw [beq_iff_eq]; exact hcontra⟩
          rw [hflt] at hmem
          cases hmem
        rw [getVal_foldl_of_no_match cc qs _ k hnom]
        simp only [insertPair]
        rw [if_neg (by rw [hkeq]; exact hk), hkeq]
        exact getVal_jsInsert_self acc k _
      | cons r rs =>
        rw [hflt, List.getLast?_cons_cons] at hlast
        exact ih _ k p hk (by rw [hflt]; exact hlast)
    · rw [List.filter_cons, if_neg hq] at hlast
      exact ih _ k p hk hlast

theorem foldl_head_of_no_match (cc : Bool) :
    ∀ (row : RawRow) (acc : NormRow) (h0 : String) (e : JsonValue),
      acc.head? = some (h0, e) →
      (∀ q ∈ row, cleanKeyOf cc q.1 ≠ h0) →
      (row.foldl (insertPair cc) acc).head? = some (h0, e) := by
  intro row
  induction row with
  | nil => intro acc h0 e hh _; exact hh
  | cons q qs ih =>
    intro acc h0 e hh hq
    rw [List.foldl_cons]
    have hqh : cleanKeyOf cc q.1 ≠ h0 := hq q (by simp)
    have hqs : ∀ r ∈ qs, cleanKeyOf cc r.1 ≠ h0 := fun r hr => hq r (by simp [hr])
    apply ih _ h0 e _ hqs
    simp only [insertPair]
    by_cases hck : cleanKeyOf cc q.1 = ""
    · rw [if_pos hck]; exact hh
    · rw [if_neg hck]
      exact jsInsert_head_of_ne acc _ h0 e _ hh (fun h => hqh h.symm)

theorem foldl_ne_nil (cc : Bool) :
    ∀ (row : RawRow) (acc : NormRow), acc ≠ [] →
      row.foldl (insertPair cc) acc ≠ [] := by
  intro row
  induction row with
  | nil => intro acc h; exact h
  | cons q qs ih =>
    intro acc h
    rw [List.foldl_cons]
    apply ih
    simp only [insertPair]
    by_cases hck : cleanKeyOf cc q.1 = ""
    · rw [if_pos hck]; exact h
    · rw [if_neg hck]
      exact jsInsert_ne_nil acc _ _ h

theorem foldl_head_fst (cc : Bool) :
    ∀ (row : RawRow) (acc : NormRow), acc ≠ [] →
      (row.foldl (insertPair cc) acc).head?.map Prod.fst = acc.head?.map Prod.fst := by
  intro row
  induction row with
  | nil => intro acc _; rfl
  | cons q qs ih =>
    intro acc h
    rw [List.foldl_cons]
    simp only [insertPair]
    by_cases hck : cleanKeyOf cc q.1 = ""
    · rw [if_pos hck]
      exact ih acc h
    · rw [if_neg hck]
      rw [ih _ (jsInsert_ne_nil acc _ _ h)]
      exact jsInsert_head_fst acc _ _ h

theorem foldl_keys_ne_empty (cc : Bool) :
    ∀ (row : RawRow) (acc : NormRow),
      (∀ x ∈ acc.map Prod.fst, x ≠ "") →
      ∀ x ∈ (row.foldl (insertPair cc) acc).map Prod.fst, x ≠ "" := by
  intro row
  induction row with
  | nil => intro acc h; exact h
  | cons q qs ih =>
    intro acc h
    rw [List.foldl_cons]
    apply ih
    simp only [insertPair]
    by_cases hck : cleanKeyOf cc q.1 = ""
    · rw [if_pos hck]; exact h
    · rw [if_neg hck]
      intro x hx
      rcases jsInsert_map_fst acc (cleanKeyOf cc q.1) (coerceValue q.2) with hsame | ⟨happ, _⟩
      · rw [hsame] at hx
        exact h x hx
      · rw [happ] at hx
        rcases List.mem_append.mp hx with h1 | h2
        · exact h x h1
        · rw [List.mem_singleton] at h2
          rw [h2]
          exact hck

theorem foldl_keys_nodup (cc : Bool) :
    ∀ (row : RawRow) (acc : NormRow),
      (acc.map Prod.fst).Nodup →
      ((row.foldl (insertPair cc) acc).map Prod.fst).Nodup := by
  intro row
  induction row with
  | nil => intro acc h; exact h
  | cons q qs ih =>
    intro acc h
    rw [List.foldl_cons]
    apply ih
    simp only [insertPair]
    by_cases hck : cleanKeyOf cc q.1 = ""
    · rw [if_pos hck]; exact h
    · rw [if_neg hck]
      rcases jsInsert_map_fst acc (cleanKeyOf cc q.1) (coerceValue q.2) with hsame | ⟨happ, hnotin⟩
      · rw [hsame]; exact h
      · rw [happ, ← List.concat_eq_append]
        exact List.Nodup.concat hnotin h

theorem foldl_keys_mem (cc : Bool) :
    ∀ (row : RawRow) (acc : NormRow) (x : String),
      x ∈ acc.map Prod.fst →
      x ∈ (row.foldl (insertPair cc) acc).map Prod.fst := by
  intro row
  induction row with
  | nil => intro acc x h; exact h
  | cons q qs ih =>
    intro acc x h
    rw [List.foldl_cons]
    apply ih
    simp only [insertPair]
    by_cases hck : cleanKeyOf cc q.1 = ""
    · rw [if_pos hck]; exact h
    · rw [if_neg hck]
      rcases jsInsert_map_fst acc (cleanKeyOf cc q.1) (coerceValue q.2) with hsame | ⟨happ, _⟩
      · rw [hsame]; exact h
      · rw [happ]
        exact List.mem_append.mpr (Or.inl h)

/-! ### The indexed map over retained rows -/

theorem processAll_length (addId cc : Bool) :
    ∀ (rows : List RawRow) (n : Nat),
      (processAll addId cc n rows).length = rows.length := by
  intro rows
  induction rows with
  | nil => intro n; rfl
  | cons r rs ih =>
    intro n
    simp only [processAll, List.length_cons, ih]

theorem processAll_getElem? (addId cc : Bool) :
    ∀ (rows : List RawRow) (n i : Nat),
      (processAll addId cc n rows)[i]?
        = (rows[i]?).map fun r => processRow addId cc (n + i) r := by
  intro rows
  induction rows with
  | nil => intro n i; simp [processAll]
  | cons r rs ih =>
    intro n i
    cases i with
    | zero => simp [processAll]
    | succ j =>
      simp only [processAll, List.getElem?_cons_succ]
      rw [ih (n + 1) j]
      have harith : n + 1 + j = n + (j + 1) := by omega
      rw [harith]

/-! ### Day-number arithmetic -/

theorem fdiv_day_split (d t : Int) (h0 : 0 ≤ t) (h1 : t < 86400000) :
    (d * 86400000 + t).fdiv 86400000 = d := by
  rw [Int.fdiv_eq_ediv _ (by decide : (0 : Int) ≤ 86400000)]
  rw [Int.add_comm]
  rw [Int.add_mul_ediv_right t d (by decide : (86400000 : Int) ≠ 0)]
  rw [Int.ediv_eq_zero_of_lt h0 h1]
  simp

/-! ### Per-row and membership helpers -/

theorem processAll_mem (addId cc : Bool) :
    ∀ (rows : List RawRow) (n : Nat) (r : NormRow),
      r ∈ processAll addId cc n rows →
      ∃ i row, row ∈ rows ∧ r = processRow addId cc i row := by
  intro rows
  induction rows with
  | nil => intro n r h; cases h
  | cons q qs ih =>
    intro n r h
    rw [processAll] at h
    rcases List.mem_cons.mp h with h1 | h2
    · exact ⟨n, q, by simp, h1⟩
    · obtain ⟨i, row, hrow, heq⟩ := ih (n + 1) r h2
      exact ⟨i, row, by simp [hrow], heq⟩

theorem processRow_keys_ne_empty (addId cc : Bool) (i : Nat) (row : RawRow) :
    ∀ x ∈ (processRow addId cc i row).map Prod.fst, x ≠ "" := by
  unfold processRow
  apply foldl_keys_ne_empty
  cases addId <;> simp

/-! ### Claim theorems -/

/-- C4: with `camelCase = true`, header normalization is: split the raw header
on runs of whitespace, hyphen, underscore or period; drop empty tokens; fully
lower-case the first token; upper-case the first character and lower-case the
rest of every later token; concatenate with no separator.  An empty or
whitespace-only header yields `""`, and all eight examples listed in the spec
hold.  (The code's preliminary trim and whitespace-collapse steps do not
change the token list, so normalization acts directly on the raw header's
separator-run tokens.) -/
theorem claim_C4_camel_case :
    (∀ s : String,
        toCamelCase s = String.mk ((camelWords (tokensBy isSep s.data)).flatten))
    ∧ toCamelCase "premiu turneu" = "premiuTurneu"
    ∧ toCamelCase "First Name" = "firstName"
    ∧ toCamelCase "user_email" = "userEmail"
    ∧ toCamelCase "product-category" = "productCategory"
    ∧ toCamelCase "Order   Date" = "orderDate"
    ∧ toCamelCase "total.amount" = "totalAmount"
    ∧ toCamelCase "" = ""
    ∧ toCamelCase "   " = "" := by
  refine ⟨?_, by decide, by decide, by decide, by decide, by decide, by decide,
    by decide, by decide⟩
  intro s
  unfold toCamelCase
  rw [tokensBy_collapse_trim]

/-- C9: with `camelCase = false`, normalization returns the header trimmed
with every internal whitespace run collapsed to a single space — equivalently,
its maximal non-whitespace chunks joined by single spaces, so letter case and
non-whitespace separator characters are preserved literally — and the spec's
example holds. -/
theorem claim_C9_passthrough :
    (∀ s : String, trimCollapse s = String.mk (joinSp (tokensBy isWs s.data)))
    ∧ trimCollapse "  First   Name " = "First Name" :=
  ⟨trimCollapse_eq_joinSp, by decide⟩

/-- C3: `processSheetData` retains exactly the input rows having at least one
value that is not null, not absent and not the empty string (keys are ignored
by the emptiness test), keeps them in their original relative order (the
retained list is a sublist of the input), and transforms each by its
post-filtering position. -/
theorem claim_C3_row_filter (data : List RawRow) (addId cc : Bool) :
    processSheetData data addId cc
        = processAll addId cc 0
            (data.filter fun r =>
              decide (∃ q ∈ r, q.2 ≠ CellValue.null ∧ q.2 ≠ CellValue.undef
                ∧ q.2 ≠ CellValue.str ""))
    ∧ List.Sublist (data.filter rowNonEmpty) data := by
  constructor
  · unfold processSheetData
    congr 1
    apply List.filter_congr
    intro r _
    rw [Bool.eq_iff_iff, decide_eq_true_eq]
    unfold rowNonEmpty cellHasContent
    rw [List.any_eq_true]
    constructor
    · rintro ⟨q, hq, hcell⟩
      refine ⟨q, hq, ?_⟩
      simp only [Bool.and_eq_true, Bool.not_eq_true', beq_eq_false_iff_ne] at hcell
      exact ⟨hcell.1.1, hcell.1.2, hcell.2⟩
    · rintro ⟨q, hq, h1, h2, h3⟩
      refine ⟨q, hq, ?_⟩
      simp only [Bool.and_eq_true, Bool.not_eq_true', beq_eq_false_iff_ne]
      exact ⟨⟨h1, h2⟩, h3⟩
  · exact List.filter_sublist data

/-- C6: cell-value coercion renders a date as the `"YYYY-MM-DD"` UTC calendar
date of its instant — the result depends only on the ECMAScript day number
`floor(ms / 86400000)`, so the time of day is discarded, and an instant on
UTC day 19797 (2024-03-15) renders as `"2024-03-15"` for every time of day;
null, absent and empty-string values map to null; strings, numbers and
booleans pass through unchanged.  Coercion is a total function on the cell
value domain, so it never throws. -/
theorem claim_C6_coercion :
    (∀ day t : Int, 0 ≤ t → t < 86400000 →
        coerceValue (CellValue.date (day * 86400000 + t))
          = coerceValue (CellValue.date (day * 86400000)))
    ∧ (∀ t : Int, 0 ≤ t → t < 86400000 →
        coerceValue (CellValue.date (19797 * 86400000 + t))
          = JsonValue.str "2024-03-15")
    ∧ coerceValue CellValue.null = JsonValue.null
    ∧ coerceValue CellValue.undef = JsonValue.null
    ∧ coerceValue (CellValue.str "") = JsonValue.null
    ∧ (∀ s : String, s ≠ "" → coerceValue (CellValue.str s) = JsonValue.str s)
    ∧ (∀ n : Int, coerceValue (CellValue.num n) = JsonValue.num n)
    ∧ (∀ b : Bool, coerceValue (CellValue.bool b) = JsonValue.bool b) := by
  refine ⟨?_, ?_, rfl, rfl, by decide, ?_, fun n => rfl, fun b => rfl⟩
  · intro day t h0 h1
    show JsonValue.str (isoDatePart (day * 86400000 + t))
        = JsonValue.str (isoDatePart (day * 86400000))
    unfold isoDatePart
    rw [fdiv_day_split day t h0 h1,
      Int.mul_fdiv_cancel day (by decide : (86400000 : Int) ≠ 0)]
  · intro t h0 h1
    show JsonValue.str (isoDatePart (19797 * 86400000 + t)) = JsonValue.str "2024-03-15"
    unfold isoDatePart
    rw [fdiv_day_split 19797 t h0 h1]
    decide
  · intro s hs
    show (if s = "" then JsonValue.null else JsonValue.str s) = JsonValue.str s
    rw [if_neg hs]

/-- Witness for C6 at a concrete instant: noon UTC on 2024-03-15. -/
theorem claim_C6_witness :
    coerceValue (CellValue.date (19797 * 86400000 + 43200000))
      = JsonValue.str "2024-03-15" :=
  claim_C6_coercion.2.1 43200000 (by decide) (by decide)

/-- C7: a raw header whose normalized key is the empty string is skipped
entirely, so `""` never occurs as a key in any row produced by
`processSheetData`. -/
theorem claim_C7_empty_key_dropped (data : List RawRow) (addId cc : Bool)
    (r : NormRow) (hr : r ∈ processSheetData data addId cc) :
    "" ∉ r.map Prod.fst := by
  unfold processSheetData at hr
  obtain ⟨i, row, _, heq⟩ := processAll_mem addId cc _ 0 r hr
  subst heq
  intro hmem
  exact processRow_keys_ne_empty addId cc i row "" hmem rfl

/-- Witness for C7: a retained row whose second header normalizes to `""`
drops that column; the resulting row's key list avoids `""`. -/
theorem claim_C7_witness :
    "" ∉ ([("id", JsonValue.num 0), ("aB", JsonValue.num 1)] : NormRow).map Prod.fst :=
  claim_C7_empty_key_dropped [[("a b", CellValue.num 1), ("  ", CellValue.num 2)]]
    true true [("id", JsonValue.num 0), ("aB", JsonValue.num 1)] (by decide)

/-- C8: when raw keys of a row normalize to the same nonempty clean key, the
output row holds the coerced value of the last such pair in the row's
iteration order — later writes win, and the collision is not an error (the
transform is a total function). -/
theorem claim_C8_last_write_wins (addId cc : Bool) (i : Nat) (row : RawRow)
    (k : String) (p : String × CellValue) (hk : k ≠ "")
    (hlast : (row.filter fun q => cleanKeyOf cc q.1 == k).getLast? = some p) :
    getVal (processRow addId cc i row) k = some (coerceValue p.2) := by
  unfold processRow
  exact getVal_foldl_last cc row _ k p hk hlast

/-- Witness for C8: `"a"` and `"A"` both normalize to `"a"`; the later pair's
value 2 survives. -/
theorem claim_C8_witness :
    getVal (processRow true true 0 [("a", CellValue.num 1), ("A", CellValue.num 2)]) "a"
      = some (JsonValue.num 2) :=
  claim_C8_last_write_wins true true 0 [("a", CellValue.num 1), ("A", CellValue.num 2)]
    "a" ("A", CellValue.num 2) (by decide) (by decide)

/-- A row none of whose keys is an array index enumerates in creation order. -/
theorem enumOrder_eq_self (r : NormRow)
    (h : ∀ p ∈ r, isArrayIndex p.1 = false) : enumOrder r = r := by
  unfold enumOrder
  have h1 : (r.filter fun p => isArrayIndex p.1) = [] := by
    rw [List.filter_eq_nil_iff]
    intro p hp
    simp [h p hp]
  have h2 : (r.filter fun p => !(isArrayIndex p.1)) = r := by
    rw [List.filter_eq_self]
    intro p hp
    rw [h p hp]
    rfl
  rw [h1, h2]
  simp

/-- Every key of the folded row satisfies `P` when the accumulator's keys and
all clean keys of the row do. -/
theorem foldl_keys_pred (cc : Bool) (P : String → Bool) :
    ∀ (row : RawRow) (acc : NormRow),
      (∀ x ∈ acc.map Prod.fst, P x = true) →
      (∀ q ∈ row, P (cleanKeyOf cc q.1) = true) →
      ∀ x ∈ (row.foldl (insertPair cc) acc).map Prod.fst, P x = true := by
  intro row
  induction row with
  | nil => intro acc h _; exact h
  | cons q qs ih =>
    intro acc h hrow
    rw [List.foldl_cons]
    apply ih
    · simp only [insertPair]
      by_cases hck : cleanKeyOf cc q.1 = ""
      · rw [if_pos hck]; exact h
      · rw [if_neg hck]
        intro x hx
        rcases jsInsert_map_fst acc (cleanKeyOf cc q.1) (coerceValue q.2) with hsame | ⟨happ, _⟩
        · rw [hsame] at hx
          exact h x hx
        · rw [happ] at hx
          rcases List.mem_append.mp hx with h1 | h2
          · exact h x h1
          · rw [List.mem_singleton] at h2
            rw [h2]
            exact hrow q (by simp)
    · intro q2 hq2
      exact hrow q2 (by simp [hq2])

/-- C10: with `addId = true`, when a retained row has raw headers normalizing
to `"id"`, the sequential id written first is overwritten during per-key
assignment by the coerced value of the last such column, and the output row
still has exactly one `id` key. -/
theorem claim_C10_id_column_overwrite (cc : Bool) (i : Nat) (row : RawRow)
    (p : String × CellValue)
    (hlast : (row.filter fun q => cleanKeyOf cc q.1 == "id").getLast? = some p) :
    getVal (processRow true cc i row) "id" = some (coerceValue p.2)
    ∧ ((processRow true cc i row).map Prod.fst).count "id" = 1 := by
  constructor
  · unfold processRow
    exact getVal_foldl_last cc row _ "id" p (by decide) hlast
  · have hnd : ((processRow true cc i row).map Prod.fst).Nodup := by
      unfold processRow
      apply foldl_keys_nodup
      simp
    have hmem : "id" ∈ (processRow true cc i row).map Prod.fst := by
      unfold processRow
      apply foldl_keys_mem
      simp
    exact List.count_eq_one_of_mem hnd hmem

/-- Witness for C10: a row with an `id` column; the sequential id 5 is
replaced by the column's value `"x"`. -/
theorem claim_C10_witness :
    getVal (processRow true true 5 [("id", CellValue.str "x")]) "id"
        = some (JsonValue.str "x")
    ∧ ((processRow true true 5 [("id", CellValue.str "x")]).map Prod.fst).count "id" = 1 :=
  claim_C10_id_column_overwrite true 5 [("id", CellValue.str "x")]
    ("id", CellValue.str "x") (by decide)

/-- C1 counterexample: a retained row whose raw header `"id"` normalizes to
`"id"` gets that column's coerced value `"x"` as its `id` field instead of the
sequential index 0, so the retained rows' ids are not `0..N-1` for every
input. -/
theorem claim_C1_counterexample :
    processSheetData [[("id", CellValue.str "x")]] true true
        = [[("id", JsonValue.str "x")]]
    ∧ JsonValue.str "x" ≠ JsonValue.num 0 := by
  exact ⟨by decide, by decide⟩

/-- C1 (amended): when `addId = true` and no raw key of a retained row
normalizes to `"id"`, `processSheetData` emits one output row per retained
row and the `i`-th output row's `id` value is the integer `i` — ids are
dense, zero-based, assigned by post-filtering position, and start at 0 for
every call (hence independently per sheet in all-sheets mode, which applies
`processSheetData` to each sheet separately).  If additionally no raw key of
a retained row normalizes to an ECMAScript array-index string, `id` is also
the first key of each output row in enumeration/serialization order
(array-index keys would otherwise enumerate before it). -/
theorem claim_C1_amended_id_density (data : List RawRow) (cc : Bool)
    (hnoid : ∀ r ∈ data.filter rowNonEmpty, ∀ q ∈ r, cleanKeyOf cc q.1 ≠ "id") :
    (processSheetData data true cc).length = (data.filter rowNonEmpty).length
    ∧ (∀ i : Nat, i < (processSheetData data true cc).length →
        ((processSheetData data true cc)[i]?).bind (fun r => getVal r "id")
          = some (JsonValue.num i))
    ∧ ((∀ r ∈ data.filter rowNonEmpty, ∀ q ∈ r,
          isArrayIndex (cleanKeyOf cc q.1) = false) →
        ∀ i : Nat, i < (processSheetData data true cc).length →
          (((processSheetData data true cc)[i]?).map enumOrder).bind List.head?
            = some ("id", JsonValue.num i)) := by
  have hrow : ∀ i : Nat, i < (processSheetData data true cc).length →
      ∃ r, r ∈ data.filter rowNonEmpty
        ∧ (processSheetData data true cc)[i]? = some (processRow true cc i r) := by
    intro i hi
    unfold processSheetData at hi ⊢
    have hlen : i < (data.filter rowNonEmpty).length := by
      rwa [processAll_length] at hi
    have hr : (data.filter rowNonEmpty)[i]? = some ((data.filter rowNonEmpty)[i]) :=
      List.getElem?_eq_getElem hlen
    refine ⟨_, List.getElem?_mem hr, ?_⟩
    rw [processAll_getElem?, hr]
    simp only [Option.map_some', Nat.zero_add]
  refine ⟨?_, ?_, ?_⟩
  · unfold processSheetData
    exact processAll_length true cc _ 0
  · intro i hi
    obtain ⟨r, hmem, hout⟩ := hrow i hi
    rw [hout]
    simp only [Option.some_bind]
    show getVal (r.foldl (insertPair cc)
        (if true then [("id", JsonValue.num i)] else [])) "id" = some (JsonValue.num i)
    rw [getVal_foldl_of_no_match cc r _ "id" (hnoid r hmem)]
    simp [getVal, List.find?_cons]
  · intro hnoidx i hi
    obtain ⟨r, hmem, hout⟩ := hrow i hi
    rw [hout]
    simp only [Option.map_some', Option.some_bind]
    have hkeys : ∀ p ∈ processRow true cc i r, isArrayIndex p.1 = false := by
      intro p hp
      have hx : p.1 ∈ (processRow true cc i r).map Prod.fst :=
        List.mem_map_of_mem Prod.fst hp
      have hP := foldl_keys_pred cc (fun x => !(isArrayIndex x)) r
        (if true then [("id", JsonValue.num i)] else [])
        (by intro x hxm; simp at hxm; subst hxm; decide)
        (by intro q hq; simp [hnoidx r hmem q hq])
        p.1 hx
      rwa [Bool.not_eq_true'] at hP
    rw [enumOrder_eq_self _ hkeys]
    unfold processRow
    apply foldl_head_of_no_match
    · simp
    · exact hnoid r hmem

/-- Witness for C1 (amended): one retained row whose only header `"a"` is
neither `"id"`-like nor an array index; the single output row's id value is 0
and `("id", 0)` leads the enumeration order. -/
theorem claim_C1_witness :
    (((processSheetData [[("a", CellValue.num 5)]] true true)[0]?).map enumOrder).bind
        List.head?
      = some ("id", JsonValue.num 0) :=
  (claim_C1_amended_id_density [[("a", CellValue.num 5)]] true (by decide)).2.2
    (by decide) 0 (by decide)

/-- C2 counterexample: on a workbook with no sheets, all-sheets mode succeeds
with an empty mapping (`success: true`, `data: {}`) instead of failing — a
silently empty result where the claim demands a failure in every mode. -/
theorem claim_C2_counterexample :
    convertExcelToJson [] ⟨none, true, false, false, false⟩ = ConvResult.multi []
    ∧ isFailure (convertExcelToJson [] ⟨none, true, false, false, false⟩) = false := by
  exact ⟨by decide, by decide⟩

/-- C2 (amended): on a workbook whose sheet list is empty (listSheets off),
single-sheet / default-first conversion does fail (with the sheet-not-found
message — there is no dedicated EmptyWorkbookError in the code), but
all-sheets conversion succeeds with an empty mapping, i.e. a silently empty
result. -/
theorem claim_C2_amended_empty_workbook (o : SheetOpts) (hl : o.listSheets = false) :
    (o.allSheets = true → convertExcelToJson [] o = ConvResult.multi [])
    ∧ (o.allSheets = false → ∃ m, convertExcelToJson [] o = ConvResult.failure m) := by
  constructor
  · intro ha
    simp [convertExcelToJson, hl, ha]
  · intro ha
    cases hs : o.sheet with
    | none => exact ⟨sheetNotFoundMsg "undefined" [], by simp [convertExcelToJson, hl, ha, hs]⟩
    | some s =>
      by_cases hse : s = ""
      · exact ⟨sheetNotFoundMsg "undefined" [],
          by simp [convertExcelToJson, hl, ha, hs, hse]⟩
      · exact ⟨sheetNotFoundMsg s [], by simp [convertExcelToJson, hl, ha, hs, hse]⟩

/-- Witness for C2 (amended): default-first conversion of the empty workbook
fails. -/
theorem claim_C2_witness :
    isFailure (convertExcelToJson [] ⟨none, false, false, false, false⟩) = true := by
  obtain ⟨m, hm⟩ :=
    (claim_C2_amended_empty_workbook ⟨none, false, false, false, false⟩ rfl).2 rfl
  rw [hm]
  rfl

/-- C5 counterexample: `options.sheet = ""` is provided and `""` is not among
the sheet names, yet selection does not fail — JS falsiness of the empty
string makes `options.sheet || sheetNames[0]` fall back to the first sheet,
which succeeds. -/
theorem claim_C5_counterexample :
    convertExcelToJson [("Sales", []), ("Summary", [])]
        ⟨some "", false, false, false, false⟩ = ConvResult.single []
    ∧ isFailure (convertExcelToJson [("Sales", []), ("Summary", [])]
        ⟨some "", false, false, false, false⟩) = false := by
  exact ⟨by decide, by decide⟩

/-- C5 (amended): for a nonempty sheet list in single-sheet mode, selection
fails — with the sheet-not-found message carrying both the requested name and
the full name list — if and only if `options.sheet` is provided, nonempty,
and not among the sheet names.  When `options.sheet` is provided, nonempty
and present, exactly that sheet is processed; when it is absent *or empty*,
the first sheet is processed.  On success the result is a bare single-sheet
array, not wrapped in a mapping. -/
theorem claim_C5_amended_sheet_selection (wb : List (String × List RawRow))
    (o : SheetOpts) (hl : o.listSheets = false) (ha : o.allSheets = false)
    (hwb : wb ≠ []) :
    (∀ s, o.sheet = some s → s ≠ "" → s ∉ wb.map Prod.fst →
        convertExcelToJson wb o
          = ConvResult.failure (sheetNotFoundMsg s (wb.map Prod.fst)))
    ∧ (∀ s, o.sheet = some s → s ≠ "" → s ∈ wb.map Prod.fst →
        ∃ pr, wb.find? (fun q => q.1 == s) = some pr ∧ pr.1 = s
          ∧ convertExcelToJson wb o
              = ConvResult.single (processSheetData pr.2 (!o.noId) (!o.noCamelCase)))
    ∧ ((o.sheet = none ∨ o.sheet = some "") →
        ∃ pr, wb.head? = some pr
          ∧ convertExcelToJson wb o
              = ConvResult.single (processSheetData pr.2 (!o.noId) (!o.noCamelCase)))
    ∧ (isFailure (convertExcelToJson wb o) = true
        ↔ ∃ s, o.sheet = some s ∧ s ≠ "" ∧ s ∉ wb.map Prod.fst) := by
  have part1 : ∀ s, o.sheet = some s → s ≠ "" → s ∉ wb.map Prod.fst →
      convertExcelToJson wb o
        = ConvResult.failure (sheetNotFoundMsg s (wb.map Prod.fst)) := by
    intro s hs hse hnot
    have hfind : wb.find? (fun q => q.1 == s) = none := by
      rw [List.find?_eq_none]
      intro q hq hbeq
      exact hnot (List.mem_map.mpr ⟨q, hq, beq_iff_eq.mp hbeq⟩)
    simp [convertExcelToJson, hl, ha, hs, hse, hfind]
  have part2 : ∀ s, o.sheet = some s → s ≠ "" → s ∈ wb.map Prod.fst →
      ∃ pr, wb.find? (fun q => q.1 == s) = some pr ∧ pr.1 = s
        ∧ convertExcelToJson wb o
            = ConvResult.single (processSheetData pr.2 (!o.noId) (!o.noCamelCase)) := by
    intro s hs hse hmem
    have hex : ∃ q, q ∈ wb ∧ (q.1 == s) = true := by
      obtain ⟨q, hq, hqs⟩ := List.mem_map.mp hmem
      exact ⟨q, hq, by rw [beq_iff_eq]; exact hqs⟩
    have hsome : (wb.find? fun q => q.1 == s).isSome := List.find?_isSome.mpr hex
    obtain ⟨pr, hfind⟩ := Option.isSome_iff_exists.mp hsome
    have hpr := List.find?_some hfind
    simp only [beq_iff_eq] at hpr
    refine ⟨pr, hfind, hpr, ?_⟩
    simp [convertExcelToJson, hl, ha, hs, hse, hfind]
  have part3 : (o.sheet = none ∨ o.sheet = some "") →
      ∃ pr, wb.head? = some pr
        ∧ convertExcelToJson wb o
            = ConvResult.single (processSheetData pr.2 (!o.noId) (!o.noCamelCase)) := by
    intro hs
    cases wb with
    | nil => exact absurd rfl hwb
    | cons p rest =>
      refine ⟨p, rfl, ?_⟩
      rcases hs with hs | hs <;>
        simp [convertExcelToJson, hl, ha, hs, List.find?_cons]
  refine ⟨part1, part2, part3, ?_⟩
  constructor
  · intro hfail
    cases hs : o.sheet with
    | none =>
      obtain ⟨pr, _, heq⟩ := part3 (Or.inl hs)
      rw [heq] at hfail
      simp [isFailure] at hfail
    | some s =>
      by_cases hse : s = ""
      · obtain ⟨pr, _, heq⟩ := part3 (Or.inr (by rw [hs, hse]))
        rw [heq] at hfail
        simp [isFailure] at hfail
      · by_cases hmem : s ∈ wb.map Prod.fst
        · obtain ⟨pr, _, _, heq⟩ := part2 s hs hse hmem
          rw [heq] at hfail
          simp [isFailure] at hfail
        · exact ⟨s, rfl, hse, hmem⟩
  · rintro ⟨s, hs, hse, hnot⟩
    rw [part1 s hs hse hnot]
    rfl

/-- Witness for C5 (amended): the spec's own example — requesting `"Q1"` from
`["Sales", "Summary"]` fails with the message naming both. -/
theorem claim_C5_witness :
    convertExcelToJson [("Sales", ([] : List RawRow)), ("Summary", [])]
        ⟨some "Q1", false, false, false, false⟩
      = ConvResult.failure (sheetNotFoundMsg "Q1" ["Sales", "Summary"]) :=
  (claim_C5_amended_sheet_selection [("Sales", []), ("Summary", [])]
      ⟨some "Q1", false, false, false, false⟩ rfl rfl (by decide)).1 "Q1" rfl
    (by decide) (by decide)
